import Mathlib

/-!
Verification of the IPS patch codec and differ (`ips_patch.py`).

Byte buffers are modelled as `List Nat` (each element a byte value).
Python's clamping slice reads `data[a:b]`, slice assignment
`data[a:b] = r`, and `bytes * n` repetition are modelled by `pySlice`,
`pySetSlice` and `pyRepeat`.  Big-endian `int.from_bytes` / `int.to_bytes`
are `fromBytesBE` / `toBytesBE`.  Python exceptions become `Except`
results; the `while` loops of `IPSPatch.from_bytes` and
`IPSPatch.from_diff` are embedded with an explicit fuel counter (the
distinguished result `PatchError.fuelOut` marks fuel exhaustion, and is
proved unreachable where the claims require it).
-/

/-- Python slice read `l[a:b]` with clamping semantics (0 ≤ a ≤ b). -/
def pySlice (l : List Nat) (a b : Nat) : List Nat :=
  (l.take b).drop a

/-- Python slice assignment `l[a:b] = r` for 0 ≤ a ≤ b: the elements at
positions `[a, b)` (clamped to the list) are replaced by `r`. -/
def pySetSlice (l : List Nat) (a b : Nat) (r : List Nat) : List Nat :=
  l.take a ++ r ++ l.drop b

/-- Python sequence repetition `l * n` (concatenation of `n` copies). -/
def pyRepeat (l : List Nat) (n : Nat) : List Nat :=
  (List.replicate n l).flatten

/-- Python `int.from_bytes(l, 'big')`. -/
def fromBytesBE (l : List Nat) : Nat :=
  l.foldl (fun acc b => acc * 256 + b) 0

/-- Python `n.to_bytes(w, 'big')` (truncating above `256 ^ w`; the source
only calls it on values that fit, enforced by the record constructor). -/
def toBytesBE : Nat → Nat → List Nat
  | 0, _ => []
  | w + 1, n => toBytesBE w (n / 256) ++ [n % 256]

/-- Module-level constants of `ips_patch.py`. -/
def OFFSET_SIZE : Nat := 3

def OFFSET_BITS : Nat := OFFSET_SIZE * 8

def OFFSET_MAX : Nat := 2 ^ OFFSET_BITS - 1

def SIZE_SIZE : Nat := 2

def SIZE_BITS : Nat := SIZE_SIZE * 8

def SIZE_MAX : Nat := 2 ^ SIZE_BITS - 1

def RLE_SIZE_SIZE : Nat := 2

def RLE_SIZE_BITS : Nat := RLE_SIZE_SIZE * 8

def RLE_SIZE_MAX : Nat := 2 ^ RLE_SIZE_BITS - 1

/-- `PATCH = b'PATCH'`. -/
def PATCH_BYTES : List Nat := [80, 65, 84, 67, 72]

/-- `EOF = b'EOF'`. -/
def EOF_BYTES : List Nat := [69, 79, 70]

/-- The Python exceptions raised by `ips_patch.py`: the three `ValueError`
range messages of `IPSPatchRecord.__init__`, the
`ValueError('Invalid patch format.')` of `IPSPatch.from_bytes`, and the
fuel marker of the loop embedding. -/
instance {ε α : Type} [DecidableEq ε] [DecidableEq α] : DecidableEq (Except ε α) := fun a b =>
  match a, b with
  | .error e, .error f =>
    if h : e = f then .isTrue (congrArg Except.error h)
    else .isFalse (fun c => h (by injection c))
  | .ok x, .ok y =>
    if h : x = y then .isTrue (congrArg Except.ok h)
    else .isFalse (fun c => h (by injection c))
  | .error _, .ok _ => .isFalse (fun c => by injection c)
  | .ok _, .error _ => .isFalse (fun c => by injection c)

inductive PatchError where
  | offsetRange
  | dataSize
  | rleRange
  | invalidFormat
  | fuelOut
  deriving DecidableEq, Repr

/-- In-memory record state set by `IPSPatchRecord.__init__`. -/
structure IPSPatchRecord where
  offset : Nat
  data : List Nat
  rle_size : Nat
  deriving DecidableEq, Repr

/-- `IPSPatchRecord.__init__(offset, data, rle_size=0)`: validates the
three field widths (in source order) and otherwise stores the arguments
unchanged.  `offset` and `rle_size` are `Nat`, so the lower bound checks
`0 <= offset` and `0 <= rle_size` of the source hold trivially. -/
def IPSPatchRecord.init (offset : Nat) (data : List Nat) (rle_size : Nat := 0) :
    Except PatchError IPSPatchRecord :=
  if offset ≤ OFFSET_MAX then
    if data.length ≤ SIZE_MAX then
      if rle_size ≤ RLE_SIZE_MAX then
        .ok ⟨offset, data, rle_size⟩
      else .error .rleRange
    else .error .dataSize
  else .error .offsetRange

/-- Property `IPSPatchRecord.is_rle`: `self.rle_size > 0`. -/
def IPSPatchRecord.is_rle (r : IPSPatchRecord) : Bool :=
  decide (0 < r.rle_size)

/-- Property `IPSPatchRecord.size`: value of the on-wire size field. -/
def IPSPatchRecord.size (r : IPSPatchRecord) : Nat :=
  if r.is_rle then 0 else r.data.length

/-- Property `IPSPatchRecord.applied_size`. -/
def IPSPatchRecord.applied_size (r : IPSPatchRecord) : Nat :=
  if r.is_rle then r.rle_size else r.size

/-- `IPSPatchRecord.from_bytes(data)`: reads a 3-byte offset and a 2-byte
size field; a positive size selects the literal branch, otherwise a
2-byte RLE size and one fill byte are read.  All reads use clamping
slices, exactly as in the source. -/
def IPSPatchRecord.from_bytes (data : List Nat) : Except PatchError IPSPatchRecord :=
  let offset := fromBytesBE (pySlice data 0 OFFSET_SIZE)
  let size := fromBytesBE (pySlice data OFFSET_SIZE (OFFSET_SIZE + SIZE_SIZE))
  if 0 < size then
    IPSPatchRecord.init offset (pySlice data 5 (5 + size)) 0
  else
    IPSPatchRecord.init offset (pySlice data 7 8)
      (fromBytesBE (pySlice data 5 7))

/-- `IPSPatchRecord.to_bytes()`. -/
def IPSPatchRecord.to_bytes (r : IPSPatchRecord) : List Nat :=
  toBytesBE OFFSET_SIZE r.offset ++
    (if r.is_rle then
      List.replicate SIZE_SIZE 0 ++ toBytesBE RLE_SIZE_SIZE r.rle_size ++
        pyRepeat (r.data.take 1) r.rle_size
    else
      toBytesBE SIZE_SIZE r.data.length ++ r.data)

/-- `IPSPatchRecord.apply(data)`: Python slice assignment on the buffer
(the source mutates; the embedding returns the new buffer). -/
def IPSPatchRecord.apply (r : IPSPatchRecord) (data : List Nat) : List Nat :=
  if r.is_rle then
    pySetSlice data r.offset (r.offset + r.rle_size) (pyRepeat (r.data.take 1) r.rle_size)
  else
    pySetSlice data r.offset (r.offset + r.size) r.data

/-- `IPSPatchRecord.__len__`: number of bytes of the binary format
assumed by the whole-patch decode cursor. -/
def IPSPatchRecord.byteLen (r : IPSPatchRecord) : Nat :=
  if r.is_rle then OFFSET_SIZE + SIZE_SIZE + RLE_SIZE_SIZE + 1
  else OFFSET_SIZE + SIZE_SIZE + r.data.length

/-- `IPSPatch`: ordered record sequence. -/
structure IPSPatch where
  records : List IPSPatchRecord
  deriving DecidableEq, Repr

/-- The record loop of `IPSPatch.from_bytes`: at cursor `i`, stop on the
`EOF` marker, fail on an exhausted buffer, otherwise decode one record
and advance by its `__len__`.  `fuel` bounds the iteration count of the
source's `while` loop. -/
def parseRecords (data : List Nat) : Nat → Nat → Except PatchError (List IPSPatchRecord)
  | 0, _ => .error .fuelOut
  | fuel + 1, i =>
    if pySlice data i (i + 3) = EOF_BYTES then .ok []
    else if data.length ≤ i then .error .invalidFormat
    else
      match IPSPatchRecord.from_bytes (data.drop i) with
      | .error e => .error e
      | .ok r =>
        match parseRecords data fuel (i + r.byteLen) with
        | .error e => .error e
        | .ok rs => .ok (r :: rs)

/-- `IPSPatch.from_bytes(data)`: magic header check, then the record
loop starting at cursor 5. -/
def IPSPatch.from_bytes (data : List Nat) : Except PatchError IPSPatch :=
  if pySlice data 0 5 = PATCH_BYTES then
    match parseRecords data (data.length + 1) 5 with
    | .error e => .error e
    | .ok rs => .ok ⟨rs⟩
  else .error .invalidFormat

/-- `IPSPatch.to_bytes()`. -/
def IPSPatch.to_bytes (p : IPSPatch) : List Nat :=
  PATCH_BYTES ++ (p.records.map IPSPatchRecord.to_bytes).flatten ++ EOF_BYTES

/-- The nested helper `find_first(start, end, comp)` of
`IPSPatch.from_diff`, split into its search kernel: scan `count`
positions from `k`, returning the first index whose byte pair satisfies
`comp`. -/
def findFromAux (comp : Nat → Nat → Bool) (src dest : List Nat) :
    Nat → Nat → Option Nat
  | 0, _ => none
  | count + 1, k =>
    if comp (src.getD k 0) (dest.getD k 0) then some k
    else findFromAux comp src dest count (k + 1)

/-- `find_first(start, end, comp)`: `zip` stops at the shorter of the two
slices, so only indices below `min end (min |src| |dest|)` are compared;
`end` is returned when no pair matches. -/
def findFirst (comp : Nat → Nat → Bool) (src dest : List Nat) (start fin : Nat) : Nat :=
  (findFromAux comp src dest (min fin (min src.length dest.length) - start) start).getD fin

/-- `operator.ne` on bytes. -/
def pyNe (a b : Nat) : Bool := decide (a ≠ b)

/-- `operator.eq` on bytes. -/
def pyEq (a b : Nat) : Bool := decide (a = b)

/-- First `while` loop of `IPSPatch.from_diff` (mismatch runs inside the
comparable range).  At loop entry `i = diff_start`; the loop finds the
run end, emits a literal record over `dest[diff_start:diff_end]`, and
rescans for the next mismatch. -/
def diffPhase1 (src dest : List Nat) : Nat → Nat → Except PatchError (Nat × List IPSPatchRecord)
  | 0, _ => .error .fuelOut
  | fuel + 1, i =>
    if i < src.length then
      let diffEnd := findFirst pyEq src dest i (min src.length (i + SIZE_MAX))
      match IPSPatchRecord.init i (pySlice dest i diffEnd) 0 with
      | .error e => .error e
      | .ok r =>
        match diffPhase1 src dest fuel (findFirst pyNe src dest diffEnd src.length) with
        | .error e => .error e
        | .ok (iEnd, rs) => .ok (iEnd, r :: rs)
    else .ok (i, [])

/-- Second `while` loop of `IPSPatch.from_diff` (tail of a longer
`dest`), emitting chunks of at most `SIZE_MAX` bytes. -/
def diffPhase2 (dest : List Nat) : Nat → Nat → Except PatchError (List IPSPatchRecord)
  | 0, _ => .error .fuelOut
  | fuel + 1, i =>
    if i < dest.length then
      let j := min dest.length (i + SIZE_MAX)
      match IPSPatchRecord.init i (pySlice dest i j) 0 with
      | .error e => .error e
      | .ok r =>
        match diffPhase2 dest fuel j with
        | .error e => .error e
        | .ok rs => .ok (r :: rs)
    else .ok []

/-- `IPSPatch.from_diff(src, dest)`. -/
def IPSPatch.from_diff (src dest : List Nat) : Except PatchError IPSPatch :=
  match diffPhase1 src dest (src.length + 1) (findFirst pyNe src dest 0 src.length) with
  | .error e => .error e
  | .ok (iEnd, rs1) =>
    match diffPhase2 dest (dest.length + 1) iEnd with
    | .error e => .error e
    | .ok rs2 => .ok ⟨rs1 ++ rs2⟩

/-- `IPSPatch.apply(data)` with the default `mutate=False`: every record
is applied in sequence order to a copy of the buffer, which is returned
(with `mutate=True` the same final buffer contents are produced by
mutation). -/
def IPSPatch.apply (p : IPSPatch) (data : List Nat) : List Nat :=
  p.records.foldl (fun buf r => r.apply buf) data

/-- Applying a record list in sequence order (the loop body of
`IPSPatch.apply`). -/
def applyRecords (recs : List IPSPatchRecord) (buf : List Nat) : List Nat :=
  recs.foldl (fun buf r => r.apply buf) buf

/-- The record list `recs` sits at offsets `≥ lo`, each record changes at
least one byte, and consecutive applied ranges `[offset, offset +
applied_size)` follow one another without overlap. -/
def ChainFrom : Nat → List IPSPatchRecord → Prop
  | _, [] => True
  | lo, r :: rs =>
    lo ≤ r.offset ∧ 1 ≤ r.applied_size ∧ ChainFrom (r.offset + r.applied_size) rs

/-- Discriminator for the fuel-exhaustion marker of the loop embedding. -/
def isFuelOut {α : Type} : Except PatchError α → Bool
  | .error .fuelOut => true
  | _ => false

/-! ### Byte-level lemmas -/

lemma toBytesBE_length (w n : Nat) : (toBytesBE w n).length = w := by
  induction w generalizing n with
  | zero => rfl
  | succ w ih => simp [toBytesBE, ih]

lemma fromBytesBE_append_singleton (xs : List Nat) (b : Nat) :
    fromBytesBE (xs ++ [b]) = fromBytesBE xs * 256 + b := by
  simp [fromBytesBE, List.foldl_append]

lemma fromBytesBE_toBytesBE (w n : Nat) (h : n < 256 ^ w) :
    fromBytesBE (toBytesBE w n) = n := by
  induction w generalizing n with
  | zero =>
    have : n = 0 := by simpa using Nat.lt_one_iff.mp (by simpa using h)
    simp [this, toBytesBE, fromBytesBE]
  | succ w ih =>
    have hdiv : n / 256 < 256 ^ w := by
      have : n < 256 ^ w * 256 := by
        calc n < 256 ^ (w + 1) := h
        _ = 256 ^ w * 256 := by rw [pow_succ]
      omega
    have := ih (n / 256) hdiv
    simp only [toBytesBE, fromBytesBE_append_singleton, this]
    omega

/-! ### `getD` lemmas -/

lemma getD_eq_getElem (l : List Nat) (i d : Nat) (h : i < l.length) :
    l.getD i d = l[i] := by
  rw [List.getD_eq_getElem?_getD, List.getElem?_eq_getElem h]; rfl

lemma getD_append_lt (a b : List Nat) (i d : Nat) (h : i < a.length) :
    (a ++ b).getD i d = a.getD i d := by
  simp [List.getD_eq_getElem?_getD, List.getElem?_append, h]

lemma getD_append_ge (a b : List Nat) (i d : Nat) (h : a.length ≤ i) :
    (a ++ b).getD i d = b.getD (i - a.length) d := by
  simp [List.getD_eq_getElem?_getD, List.getElem?_append, Nat.not_lt_of_le h]

lemma getD_take_lt (l : List Nat) (n i d : Nat) (h : i < n) :
    (l.take n).getD i d = l.getD i d := by
  simp [List.getD_eq_getElem?_getD, List.getElem?_take, h]

lemma getD_drop_add (l : List Nat) (m i d : Nat) :
    (l.drop m).getD i d = l.getD (m + i) d := by
  simp [List.getD_eq_getElem?_getD, List.getElem?_drop]

lemma list_eq_of_getD (a b : List Nat) (hlen : a.length = b.length)
    (h : ∀ k, k < a.length → a.getD k 0 = b.getD k 0) : a = b := by
  refine List.ext_getElem hlen (fun i h1 h2 => ?_)
  have := h i h1
  rwa [getD_eq_getElem a i 0 h1, getD_eq_getElem b i 0 h2] at this

/-! ### `pySlice` lemmas -/

lemma pySlice_length (l : List Nat) (a b : Nat) :
    (pySlice l a b).length = min b l.length - a := by
  simp [pySlice]

lemma getD_pySlice (l : List Nat) (a b i d : Nat) (h : a + i < b) :
    (pySlice l a b).getD i d = l.getD (a + i) d := by
  rw [pySlice, getD_drop_add, getD_take_lt _ _ _ _ h]

lemma pySlice_prefix (a b : List Nat) : pySlice (a ++ b) 0 a.length = a := by
  simp [pySlice, List.take_left]

lemma pySlice_shift (a b : List Nat) (m n : Nat) :
    pySlice (a ++ b) (a.length + m) (a.length + n) = pySlice b m n := by
  simp only [pySlice, List.take_append_eq_append_take, Nat.add_sub_cancel_left,
    List.take_of_length_le (Nat.le_add_right a.length n),
    List.drop_append_eq_append_drop,
    List.drop_eq_nil_of_le (Nat.le_add_right a.length m), List.nil_append]

lemma pySlice_append_take (a b : List Nat) (n : Nat) :
    pySlice (a ++ b) a.length (a.length + n) = b.take n := by
  have := pySlice_shift a b 0 n
  simpa [pySlice] using this

/-! ### `pySetSlice` lemmas -/

lemma pySetSlice_length (l : List Nat) (o s : Nat) (r : List Nat)
    (ho : o ≤ l.length) (hr : r.length = s) :
    (pySetSlice l o (o + s) r).length = max l.length (o + s) := by
  simp [pySetSlice, hr]
  omega

lemma getD_pySetSlice_lt (l : List Nat) (o s : Nat) (r : List Nat) (k d : Nat)
    (ho : o ≤ l.length) (hk : k < o) :
    (pySetSlice l o (o + s) r).getD k d = l.getD k d := by
  rw [pySetSlice, getD_append_lt _ _ _ _ (by simp; omega),
    getD_append_lt _ _ _ _ (by simp; omega), getD_take_lt _ _ _ _ hk]

lemma getD_pySetSlice_mid (l : List Nat) (o s : Nat) (r : List Nat) (k d : Nat)
    (ho : o ≤ l.length) (hr : r.length = s) (hk1 : o ≤ k) (hk2 : k < o + s) :
    (pySetSlice l o (o + s) r).getD k d = r.getD (k - o) d := by
  have hto : (l.take o).length = o := by simp; omega
  rw [pySetSlice, getD_append_lt _ _ _ _ (by simp; omega),
    getD_append_ge _ _ _ _ (by simp; omega), hto]

lemma getD_pySetSlice_ge (l : List Nat) (o s : Nat) (r : List Nat) (k d : Nat)
    (ho : o ≤ l.length) (hr : r.length = s) (hk : o + s ≤ k) :
    (pySetSlice l o (o + s) r).getD k d = l.getD k d := by
  have hlen : ((l.take o ++ r) : List Nat).length = o + s := by simp; omega
  rw [pySetSlice, getD_append_ge _ _ _ _ (by omega), hlen, getD_drop_add]
  congr 1
  omega

lemma pySlice_pySetSlice (l : List Nat) (o s : Nat) (r : List Nat)
    (ho : o ≤ l.length) (hr : r.length = s) :
    pySlice (pySetSlice l o (o + s) r) o (o + s) = r := by
  have h1 : ((l.take o ++ r) : List Nat).length = o + s := by simp; omega
  have hto : (l.take o).length = o := by simp; omega
  have htake : (pySetSlice l o (o + s) r).take (o + s) = l.take o ++ r := by
    rw [pySetSlice, List.take_left' h1]
  rw [pySlice, htake, List.drop_left' hto]

/-! ### Record-level lemmas -/

lemma pyRepeat_singleton (b n : Nat) : pyRepeat [b] n = List.replicate n b := by
  induction n with
  | zero => rfl
  | succ n ih =>
    simp only [pyRepeat, List.replicate_succ, List.flatten_cons] at *
    simp [ih]

lemma init_ok (offset : Nat) (data : List Nat) (rle_size : Nat)
    (h1 : offset ≤ OFFSET_MAX) (h2 : data.length ≤ SIZE_MAX)
    (h3 : rle_size ≤ RLE_SIZE_MAX) :
    IPSPatchRecord.init offset data rle_size = .ok ⟨offset, data, rle_size⟩ := by
  simp [IPSPatchRecord.init, h1, h2, h3]

lemma init_ok_inv (offset : Nat) (data : List Nat) (rle_size : Nat) (r : IPSPatchRecord)
    (h : IPSPatchRecord.init offset data rle_size = .ok r) :
    r = ⟨offset, data, rle_size⟩ ∧ offset ≤ OFFSET_MAX ∧
      data.length ≤ SIZE_MAX ∧ rle_size ≤ RLE_SIZE_MAX := by
  unfold IPSPatchRecord.init at h
  split_ifs at h with ha hb hc
  · cases h
    exact ⟨rfl, ha, hb, hc⟩

lemma is_rle_false (r : IPSPatchRecord) (h : r.rle_size = 0) : r.is_rle = false := by
  simp [IPSPatchRecord.is_rle, h]

lemma is_rle_true (r : IPSPatchRecord) (h : 0 < r.rle_size) : r.is_rle = true := by
  simp [IPSPatchRecord.is_rle, h]

lemma applied_size_literal (r : IPSPatchRecord) (h : r.rle_size = 0) :
    r.applied_size = r.data.length := by
  simp [IPSPatchRecord.applied_size, IPSPatchRecord.size, is_rle_false r h]

lemma applied_size_rle (r : IPSPatchRecord) (h : 0 < r.rle_size) :
    r.applied_size = r.rle_size := by
  simp [IPSPatchRecord.applied_size, is_rle_true r h]

lemma apply_literal (r : IPSPatchRecord) (buf : List Nat) (h : r.rle_size = 0) :
    r.apply buf = pySetSlice buf r.offset (r.offset + r.data.length) r.data := by
  simp [IPSPatchRecord.apply, IPSPatchRecord.size, is_rle_false r h]

lemma byteLen_ge_five (r : IPSPatchRecord) : 5 ≤ r.byteLen := by
  simp only [IPSPatchRecord.byteLen, OFFSET_SIZE, SIZE_SIZE, RLE_SIZE_SIZE]
  split <;> omega

lemma offset_lt_pow (o : Nat) (h : o ≤ OFFSET_MAX) : o < 256 ^ 3 := by
  simp only [OFFSET_MAX, OFFSET_BITS, OFFSET_SIZE] at h
  omega

lemma size_lt_pow (n : Nat) (h : n ≤ SIZE_MAX) : n < 256 ^ 2 := by
  simp only [SIZE_MAX, SIZE_BITS, SIZE_SIZE] at h
  omega

lemma rle_lt_pow (n : Nat) (h : n ≤ RLE_SIZE_MAX) : n < 256 ^ 2 := by
  simp only [RLE_SIZE_MAX, RLE_SIZE_BITS, RLE_SIZE_SIZE] at h
  omega

/-- Reading a width-`n` field at cursor `c`: if the buffer splits as
`P ++ S` with `|P| = c`, the slice `[c, c+n)` is the first `n` bytes
of `S`. -/
lemma pySlice_cursor (P S : List Nat) (c n : Nat) (hc : P.length = c) :
    pySlice (P ++ S) c (c + n) = S.take n := by
  subst hc
  exact pySlice_append_take P S n

lemma pySlice_prefix_len (a b : List Nat) (n : Nat) (h : a.length = n) :
    pySlice (a ++ b) 0 n = a := by
  subst h
  exact pySlice_prefix a b

/-- Single-record round-trip: decoding the encoding of a valid record
(possibly followed by further bytes) recovers the record.  Valid means:
fields within their widths, literal records have non-empty data, RLE
records hold exactly the one fill byte. -/
lemma record_from_to (r : IPSPatchRecord) (extra : List Nat)
    (h1 : r.offset ≤ OFFSET_MAX) (h2 : r.data.length ≤ SIZE_MAX)
    (h3 : r.rle_size ≤ RLE_SIZE_MAX)
    (h4 : r.rle_size = 0 → r.data ≠ [])
    (h5 : 0 < r.rle_size → r.data.length = 1) :
    IPSPatchRecord.from_bytes (r.to_bytes ++ extra) = .ok r := by
  obtain ⟨o, d, n⟩ := r
  simp only at h1 h2 h3 h4 h5
  have ht3 : (toBytesBE 3 o).length = 3 := toBytesBE_length 3 o
  have hfo : fromBytesBE (toBytesBE 3 o) = o :=
    fromBytesBE_toBytesBE 3 o (offset_lt_pow o h1)
  rcases Nat.eq_zero_or_pos n with hn | hn
  · -- literal record
    subst hn
    have hd : d ≠ [] := h4 rfl
    have hdlen : 0 < d.length := List.length_pos.mpr hd
    have ht2 : (toBytesBE 2 d.length).length = 2 := toBytesBE_length 2 d.length
    have hfs : fromBytesBE (toBytesBE 2 d.length) = d.length :=
      fromBytesBE_toBytesBE 2 d.length (size_lt_pow d.length h2)
    have henc : (IPSPatchRecord.to_bytes ⟨o, d, 0⟩) ++ extra =
        toBytesBE 3 o ++ (toBytesBE 2 d.length ++ (d ++ extra)) := by
      simp [IPSPatchRecord.to_bytes, is_rle_false ⟨o, d, 0⟩ rfl, OFFSET_SIZE, SIZE_SIZE,
        List.append_assoc]
    have e0 : pySlice ((IPSPatchRecord.to_bytes ⟨o, d, 0⟩) ++ extra) 0 3 = toBytesBE 3 o := by
      rw [henc, pySlice_prefix_len _ _ 3 ht3]
    have e1 : pySlice ((IPSPatchRecord.to_bytes ⟨o, d, 0⟩) ++ extra) 3 5 =
        toBytesBE 2 d.length := by
      rw [henc, show (5 : Nat) = 3 + 2 from rfl, pySlice_cursor _ _ 3 2 ht3,
        List.take_left' ht2]
    have e2 : pySlice ((IPSPatchRecord.to_bytes ⟨o, d, 0⟩) ++ extra) 5 (5 + d.length) = d := by
      have hsplit : (IPSPatchRecord.to_bytes ⟨o, d, 0⟩) ++ extra =
          (toBytesBE 3 o ++ toBytesBE 2 d.length) ++ (d ++ extra) := by
        rw [henc]
        simp [List.append_assoc]
      rw [hsplit, pySlice_cursor _ _ 5 d.length (by simp [ht3, ht2]),
        List.take_left' rfl]
    show IPSPatchRecord.from_bytes _ = _
    rw [IPSPatchRecord.from_bytes]
    simp only [OFFSET_SIZE, SIZE_SIZE, e0, e1, e2, hfo, hfs]
    rw [if_pos hdlen]
    exact init_ok o d 0 h1 h2 (by simp [RLE_SIZE_MAX])
  · -- RLE record
    obtain ⟨b, hb⟩ : ∃ b, d = [b] := by
      cases d with
      | nil => simp at h5; omega
      | cons x xs =>
        cases xs with
        | nil => exact ⟨x, rfl⟩
        | cons y ys =>
          have hlen := h5 hn
          simp at hlen
    subst hb
    have ht2 : (toBytesBE 2 n).length = 2 := toBytesBE_length 2 n
    have hfs : fromBytesBE (toBytesBE 2 n) = n :=
      fromBytesBE_toBytesBE 2 n (rle_lt_pow n h3)
    have henc : (IPSPatchRecord.to_bytes ⟨o, [b], n⟩) ++ extra =
        toBytesBE 3 o ++ ([0, 0] ++ (toBytesBE 2 n ++ (List.replicate n b ++ extra))) := by
      simp [IPSPatchRecord.to_bytes, is_rle_true ⟨o, [b], n⟩ hn, OFFSET_SIZE, SIZE_SIZE,
        RLE_SIZE_SIZE, pyRepeat_singleton, List.append_assoc, List.replicate_succ]
    have e0 : pySlice ((IPSPatchRecord.to_bytes ⟨o, [b], n⟩) ++ extra) 0 3 = toBytesBE 3 o := by
      rw [henc, pySlice_prefix_len _ _ 3 ht3]
    have e1 : pySlice ((IPSPatchRecord.to_bytes ⟨o, [b], n⟩) ++ extra) 3 5 = [0, 0] := by
      rw [henc, show (5 : Nat) = 3 + 2 from rfl, pySlice_cursor _ _ 3 2 ht3,
        List.take_left' (show ([0, 0] : List Nat).length = 2 from rfl)]
    have e2 : pySlice ((IPSPatchRecord.to_bytes ⟨o, [b], n⟩) ++ extra) 5 7 = toBytesBE 2 n := by
      have hsplit : (IPSPatchRecord.to_bytes ⟨o, [b], n⟩) ++ extra =
          (toBytesBE 3 o ++ [0, 0]) ++ (toBytesBE 2 n ++ (List.replicate n b ++ extra)) := by
        rw [henc]
        simp [List.append_assoc]
      rw [hsplit, show (7 : Nat) = 5 + 2 from rfl,
        pySlice_cursor _ _ 5 2 (by simp [ht3]), List.take_left' ht2]
    have e3 : pySlice ((IPSPatchRecord.to_bytes ⟨o, [b], n⟩) ++ extra) 7 8 = [b] := by
      have hsplit : (IPSPatchRecord.to_bytes ⟨o, [b], n⟩) ++ extra =
          (toBytesBE 3 o ++ [0, 0] ++ toBytesBE 2 n) ++ (List.replicate n b ++ extra) := by
        rw [henc]
        simp [List.append_assoc]
      rw [hsplit, show (8 : Nat) = 7 + 1 from rfl,
        pySlice_cursor _ _ 7 1 (by simp [ht3, ht2])]
      cases n with
      | zero => omega
      | succ m => simp [List.replicate_succ]
    show IPSPatchRecord.from_bytes _ = _
    rw [IPSPatchRecord.from_bytes]
    simp only [OFFSET_SIZE, SIZE_SIZE, e0, e1, e2, e3, hfo, hfs]
    rw [if_neg (by simp [fromBytesBE])]
    exact init_ok o [b] n h1 h2 h3

/-! ### `find_first` lemmas -/

lemma findFromAux_some (comp : Nat → Nat → Bool) (src dest : List Nat) :
    ∀ count k j, findFromAux comp src dest count k = some j →
      k ≤ j ∧ j < k + count ∧ comp (src.getD j 0) (dest.getD j 0) = true ∧
        ∀ m, k ≤ m → m < j → comp (src.getD m 0) (dest.getD m 0) = false := by
  intro count
  induction count with
  | zero => intro k j h; simp [findFromAux] at h
  | succ count ih =>
    intro k j h
    simp only [findFromAux] at h
    split_ifs at h with hc
    · cases h
      exact ⟨le_refl _, by omega, hc, fun m hm1 hm2 => absurd hm1 (by omega)⟩
    · obtain ⟨hk, hlt, hcomp, hbefore⟩ := ih (k + 1) j h
      refine ⟨by omega, by omega, hcomp, fun m hm1 hm2 => ?_⟩
      rcases Nat.eq_or_lt_of_le hm1 with he | hgt
      · subst he
        simpa using hc
      · exact hbefore m (by omega) hm2

lemma findFromAux_none (comp : Nat → Nat → Bool) (src dest : List Nat) :
    ∀ count k, findFromAux comp src dest count k = none →
      ∀ m, k ≤ m → m < k + count → comp (src.getD m 0) (dest.getD m 0) = false := by
  intro count
  induction count with
  | zero => intro k _ m hm1 hm2; omega
  | succ count ih =>
    intro k h m hm1 hm2
    simp only [findFromAux] at h
    by_cases hc : comp (src.getD k 0) (dest.getD k 0) = true
    · rw [if_pos hc] at h
      exact Option.noConfusion h
    · rw [if_neg hc] at h
      rcases Nat.eq_or_lt_of_le hm1 with he | hgt
      · subst he
        simpa using hc
      · exact ih (k + 1) h m (by omega) (by omega)

lemma findFirst_le_fin (comp : Nat → Nat → Bool) (src dest : List Nat) (start fin : Nat) :
    findFirst comp src dest start fin ≤ fin := by
  unfold findFirst
  cases hf : findFromAux comp src dest (min fin (min src.length dest.length) - start) start with
  | none => simp
  | some j =>
    obtain ⟨h1, h2, _, _⟩ := findFromAux_some comp src dest _ _ _ hf
    simp only [Option.getD_some]
    omega

lemma findFirst_ge_start (comp : Nat → Nat → Bool) (src dest : List Nat) (start fin : Nat)
    (h : start ≤ fin) : start ≤ findFirst comp src dest start fin := by
  unfold findFirst
  cases hf : findFromAux comp src dest (min fin (min src.length dest.length) - start) start with
  | none => simpa using h
  | some j => simpa using (findFromAux_some comp src dest _ _ _ hf).1

lemma findFirst_before (comp : Nat → Nat → Bool) (src dest : List Nat) (start fin : Nat)
    (m : Nat) (hm1 : start ≤ m) (hm2 : m < findFirst comp src dest start fin)
    (hm3 : m < min fin (min src.length dest.length)) :
    comp (src.getD m 0) (dest.getD m 0) = false := by
  unfold findFirst at hm2
  cases hf : findFromAux comp src dest (min fin (min src.length dest.length) - start) start with
  | none => exact findFromAux_none comp src dest _ _ hf m hm1 (by omega)
  | some j =>
    rw [hf] at hm2
    simp only [Option.getD_some] at hm2
    exact (findFromAux_some comp src dest _ _ _ hf).2.2.2 m hm1 hm2

lemma findFirst_lt_inv (comp : Nat → Nat → Bool) (src dest : List Nat) (start fin : Nat)
    (h : findFirst comp src dest start fin < fin) :
    start ≤ findFirst comp src dest start fin ∧
      findFirst comp src dest start fin < min fin (min src.length dest.length) ∧
      comp (src.getD (findFirst comp src dest start fin) 0)
        (dest.getD (findFirst comp src dest start fin) 0) = true := by
  unfold findFirst at *
  cases hf : findFromAux comp src dest (min fin (min src.length dest.length) - start) start with
  | none => exact absurd h (by simp [hf])
  | some j =>
    simp only [hf, Option.getD_some] at h ⊢
    obtain ⟨h1, h2, h3, _⟩ := findFromAux_some comp src dest _ _ _ hf
    exact ⟨h1, by omega, h3⟩

/-! ### `from_diff` phase lemmas -/

lemma pySlice_append_drop (l : List Nat) (i j : Nat) (hij : i ≤ j) :
    pySlice l i j ++ l.drop j = l.drop i := by
  rw [pySlice, List.drop_take j i l]
  have : l.drop j = (l.drop i).drop (j - i) := by
    rw [List.drop_drop]
    congr 1
    omega
  rw [this, List.take_append_drop]

lemma applyRecords_cons (r : IPSPatchRecord) (rs : List IPSPatchRecord) (buf : List Nat) :
    applyRecords (r :: rs) buf = applyRecords rs (r.apply buf) := rfl

lemma applyRecords_append (rs1 rs2 : List IPSPatchRecord) (buf : List Nat) :
    applyRecords (rs1 ++ rs2) buf = applyRecords rs2 (applyRecords rs1 buf) := by
  simp [applyRecords, List.foldl_append]

/-- Phase 2 of the diff writes exactly the tail `dest[i:]` after the end
of the working buffer. -/
lemma diffPhase2_apply (dest : List Nat) :
    ∀ fuel i recs, diffPhase2 dest fuel i = .ok recs →
      ∀ buf : List Nat, buf.length = i → applyRecords recs buf = buf ++ dest.drop i := by
  intro fuel
  induction fuel with
  | zero => intro i recs h; simp [diffPhase2] at h
  | succ fuel ih =>
    intro i recs h buf hbuf
    simp only [diffPhase2] at h
    by_cases hc : i < dest.length
    · rw [if_pos hc] at h
      split at h
      · cases h
      next r hinit =>
        split at h
        · cases h
        next rs hrec =>
          cases h
          obtain ⟨hr, _, _, _⟩ := init_ok_inv _ _ _ _ hinit
          subst hr
          have hj : i ≤ min dest.length (i + SIZE_MAX) := by omega
          have hjd : min dest.length (i + SIZE_MAX) ≤ dest.length := by omega
          have hslen : (pySlice dest i (min dest.length (i + SIZE_MAX))).length =
              min dest.length (i + SIZE_MAX) - i := by
            rw [pySlice_length]
            omega
          have happly : IPSPatchRecord.apply ⟨i, pySlice dest i (min dest.length (i + SIZE_MAX)), 0⟩ buf =
              buf ++ pySlice dest i (min dest.length (i + SIZE_MAX)) := by
            rw [apply_literal _ _ rfl]
            simp only [pySetSlice]
            rw [List.take_of_length_le (by omega), List.drop_eq_nil_of_le (by omega),
              List.append_nil]
          rw [applyRecords_cons, happly,
            ih _ _ hrec _ (by simp [hslen]; omega), List.append_assoc]
          congr 1
          exact pySlice_append_drop dest i (min dest.length (i + SIZE_MAX)) hj
    · rw [if_neg hc] at h
      cases h
      have hdrop : dest.drop i = ([] : List Nat) := List.drop_eq_nil_of_le (by omega)
      simp [applyRecords, hdrop]

lemma pyNe_false (a b : Nat) (h : pyNe a b = false) : a = b := by
  simpa [pyNe] using h

lemma pyNe_true (a b : Nat) (h : pyNe a b = true) : a ≠ b := by
  simpa [pyNe] using h

lemma pyEq_false (a b : Nat) (h : pyEq a b = false) : a ≠ b := by
  simpa [pyEq] using h

lemma pyEq_true (a b : Nat) (h : pyEq a b = true) : a = b := by
  simpa [pyEq] using h

/-- Phase 1 of the diff, pointwise: under the scan invariant (the buffer
agrees with `src` from the cursor on), applying the emitted records
leaves positions before the cursor untouched and makes every position
from the cursor to the end of `src` equal to the corresponding `dest`
byte; the final cursor is `src.length`. -/
lemma diffPhase1_pointwise (src dest : List Nat) (hL : src.length ≤ dest.length) :
    ∀ fuel i iEnd recs, diffPhase1 src dest fuel i = .ok (iEnd, recs) →
      i ≤ src.length →
      ∀ buf : List Nat, buf.length = src.length →
        (∀ k, i ≤ k → k < src.length → buf.getD k 0 = src.getD k 0) →
        iEnd = src.length ∧ (applyRecords recs buf).length = src.length ∧
          ∀ k, k < src.length →
            (applyRecords recs buf).getD k 0 =
              if k < i then buf.getD k 0 else dest.getD k 0 := by
  intro fuel
  induction fuel with
  | zero => intro i iEnd recs h; simp [diffPhase1] at h
  | succ fuel ih =>
    intro i iEnd recs h hiL buf hbuf hinv
    simp only [diffPhase1] at h
    by_cases hc : i < src.length
    · rw [if_pos hc] at h
      generalize hdE : findFirst pyEq src dest i (min src.length (i + SIZE_MAX)) = dEnd at h
      generalize hi2 : findFirst pyNe src dest dEnd src.length = i2 at h
      split at h
      · cases h
      next r hinit =>
        split at h
        · cases h
        next iEnd2 rs hrec =>
          cases h
          obtain ⟨hr, _, _, _⟩ := init_ok_inv _ _ _ _ hinit
          subst hr
          have hidE : i ≤ dEnd := by
            rw [← hdE]
            exact findFirst_ge_start pyEq src dest i _ (by omega)
          have hdEL : dEnd ≤ src.length := by
            have := hdE ▸ findFirst_le_fin pyEq src dest i (min src.length (i + SIZE_MAX))
            omega
          have hdEi2 : dEnd ≤ i2 := by
            rw [← hi2]
            exact findFirst_ge_start pyNe src dest dEnd _ hdEL
          have hi2L : i2 ≤ src.length := hi2 ▸ findFirst_le_fin pyNe src dest dEnd src.length
          have hslen : (pySlice dest i dEnd).length = dEnd - i := by
            rw [pySlice_length]
            omega
          have happly : IPSPatchRecord.apply ⟨i, pySlice dest i dEnd, 0⟩ buf =
              pySetSlice buf i (i + (pySlice dest i dEnd).length) (pySlice dest i dEnd) :=
            apply_literal _ _ rfl
          have hoff : i ≤ buf.length := by omega
          have hbuf2 : (IPSPatchRecord.apply ⟨i, pySlice dest i dEnd, 0⟩ buf).length =
              src.length := by
            rw [happly, pySetSlice_length _ _ _ _ hoff rfl]
            omega
          have hmatch : ∀ m, dEnd ≤ m → m < i2 → src.getD m 0 = dest.getD m 0 := by
            intro m hm1 hm2
            apply pyNe_false
            apply findFirst_before pyNe src dest dEnd src.length m hm1 (by omega)
            omega
          have hinv2 : ∀ k, i2 ≤ k → k < src.length →
              (IPSPatchRecord.apply ⟨i, pySlice dest i dEnd, 0⟩ buf).getD k 0 =
                src.getD k 0 := by
            intro k hk1 hk2
            rw [happly, getD_pySetSlice_ge _ _ _ _ _ _ hoff rfl (by omega)]
            exact hinv k (by omega) hk2
          obtain ⟨hiEndL, hlen, hpt⟩ := ih i2 iEnd rs hrec hi2L _ hbuf2 hinv2
          refine ⟨hiEndL, ?_, ?_⟩
          · rw [applyRecords_cons]
            exact hlen
          · intro k hkL
            rw [applyRecords_cons, hpt k hkL]
            by_cases hki : k < i
            · rw [if_pos (by omega : k < i2), if_pos hki, happly,
                getD_pySetSlice_lt _ _ _ _ _ _ hoff hki]
            · rw [if_neg hki]
              by_cases hkd : k < dEnd
              · rw [if_pos (by omega : k < i2), happly,
                  getD_pySetSlice_mid _ _ _ _ _ _ hoff rfl (by omega) (by omega),
                  getD_pySlice _ _ _ _ _ (by omega : i + (k - i) < dEnd)]
                congr 1
                omega
              · by_cases hki2 : k < i2
                · rw [if_pos hki2, happly,
                    getD_pySetSlice_ge _ _ _ _ _ _ hoff rfl (by omega)]
                  rw [hinv k (by omega) hkL]
                  exact hmatch k (by omega) hki2
                · rw [if_neg hki2]
    · rw [if_neg hc] at h
      cases h
      refine ⟨by omega, hbuf, ?_⟩
      intro k hkL
      rw [if_pos (by omega)]
      rfl

lemma ChainFrom_mono (lo lo2 : Nat) (recs : List IPSPatchRecord)
    (h : ChainFrom lo recs) (hle : lo2 ≤ lo) : ChainFrom lo2 recs := by
  cases recs with
  | nil => trivial
  | cons r rs => exact ⟨le_trans hle h.1, h.2.1, h.2.2⟩

lemma ChainFrom_le_offset (lo : Nat) (recs : List IPSPatchRecord)
    (h : ChainFrom lo recs) : ∀ r ∈ recs, lo ≤ r.offset := by
  induction recs generalizing lo with
  | nil => intro r hr; cases hr
  | cons r rs ih =>
    intro q hq
    rcases List.mem_cons.mp hq with he | ht
    · subst he; exact h.1
    · have := ih (r.offset + r.applied_size) h.2.2 q ht
      have h1 := h.1
      have h2 := h.2.1
      omega

lemma ChainFrom_pairwise (lo : Nat) (recs : List IPSPatchRecord)
    (h : ChainFrom lo recs) :
    recs.Pairwise (fun a b => a.offset < b.offset ∧
      a.offset + a.applied_size ≤ b.offset) := by
  induction recs generalizing lo with
  | nil => exact List.Pairwise.nil
  | cons r rs ih =>
    obtain ⟨h1, h2, h3⟩ := h
    refine List.Pairwise.cons ?_ (ih _ h3)
    intro b hb
    have := ChainFrom_le_offset _ _ h3 b hb
    constructor <;> omega

lemma ChainFrom_append (lo hi : Nat) (rs1 rs2 : List IPSPatchRecord)
    (h1 : ChainFrom lo rs1) (hb : ∀ r ∈ rs1, r.offset + r.applied_size ≤ hi)
    (h2 : ChainFrom hi rs2) (hlh : lo ≤ hi) : ChainFrom lo (rs1 ++ rs2) := by
  induction rs1 generalizing lo with
  | nil => exact ChainFrom_mono _ _ _ h2 hlh
  | cons r rs ih =>
    obtain ⟨ha, hs, hc⟩ := h1
    exact ⟨ha, hs, ih _ hc (fun q hq => hb q (List.mem_cons_of_mem r hq))
      (hb r (List.mem_cons_self r rs))⟩

/-- Phase 1 of the diff, range structure: under the invariant that a
cursor inside the comparable range always sits on a genuine mismatch
within `dest`, the emitted records chain upward from the cursor, every
applied range ends by `src.length`, and the final cursor is
`src.length`. -/
lemma diffPhase1_chain (src dest : List Nat) :
    ∀ fuel i iEnd recs, diffPhase1 src dest fuel i = .ok (iEnd, recs) →
      i ≤ src.length →
      (i < src.length → i < dest.length ∧ src.getD i 0 ≠ dest.getD i 0) →
      iEnd = src.length ∧ ChainFrom i recs ∧
        ∀ r ∈ recs, r.offset + r.applied_size ≤ src.length := by
  intro fuel
  induction fuel with
  | zero => intro i iEnd recs h; simp [diffPhase1] at h
  | succ fuel ih =>
    intro i iEnd recs h hiL hinv
    simp only [diffPhase1] at h
    by_cases hc : i < src.length
    · rw [if_pos hc] at h
      generalize hdE : findFirst pyEq src dest i (min src.length (i + SIZE_MAX)) = dEnd at h
      generalize hi2 : findFirst pyNe src dest dEnd src.length = i2 at h
      split at h
      · cases h
      next r hinit =>
        split at h
        · cases h
        next iEnd2 rs hrec =>
          cases h
          obtain ⟨hr, _, _, _⟩ := init_ok_inv _ _ _ _ hinit
          subst hr
          obtain ⟨hid, hmis⟩ := hinv hc
          have hidE : i ≤ dEnd := by
            rw [← hdE]
            exact findFirst_ge_start pyEq src dest i _ (by omega)
          have hdEL : dEnd ≤ src.length := by
            have := hdE ▸ findFirst_le_fin pyEq src dest i (min src.length (i + SIZE_MAX))
            omega
          have hSM : 1 ≤ SIZE_MAX := by
            simp [SIZE_MAX, SIZE_BITS, SIZE_SIZE]
          have hdEgt : i + 1 ≤ dEnd := by
            by_cases hfin : dEnd < min src.length (i + SIZE_MAX)
            · obtain ⟨hg, hlt, htrue⟩ := findFirst_lt_inv pyEq src dest i _ (hdE ▸ hfin)
              rw [hdE] at hg hlt htrue
              rcases Nat.eq_or_lt_of_le hidE with he | hgt
              · exact absurd (pyEq_true _ _ (he ▸ htrue)) hmis
              · omega
            · have hle : dEnd ≤ min src.length (i + SIZE_MAX) := by
                rw [← hdE]
                exact findFirst_le_fin pyEq src dest i (min src.length (i + SIZE_MAX))
              omega
          have hdEi2 : dEnd ≤ i2 := by
            rw [← hi2]
            exact findFirst_ge_start pyNe src dest dEnd _ hdEL
          have hi2L : i2 ≤ src.length := hi2 ▸ findFirst_le_fin pyNe src dest dEnd src.length
          have hslen : (pySlice dest i dEnd).length = min dEnd dest.length - i := by
            rw [pySlice_length]
          have hinv2 : i2 < src.length → i2 < dest.length ∧ src.getD i2 0 ≠ dest.getD i2 0 := by
            intro hlt
            obtain ⟨hg, hm, htrue⟩ := findFirst_lt_inv pyNe src dest dEnd src.length
              (hi2 ▸ hlt)
            rw [hi2] at hg hm htrue
            exact ⟨by omega, pyNe_true _ _ htrue⟩
          obtain ⟨hiEndL, hchain, hbound⟩ := ih i2 iEnd rs hrec hi2L hinv2
          have happ : (⟨i, pySlice dest i dEnd, 0⟩ : IPSPatchRecord).applied_size =
              min dEnd dest.length - i := by
            rw [applied_size_literal _ rfl]
            exact hslen
          have hoffi : (⟨i, pySlice dest i dEnd, 0⟩ : IPSPatchRecord).offset = i := rfl
          refine ⟨hiEndL, ⟨le_refl i, ?_, ?_⟩, ?_⟩
          · rw [happ]
            omega
          · apply ChainFrom_mono _ _ _ hchain
            rw [happ, hoffi]
            omega
          · intro q hq
            rcases List.mem_cons.mp hq with he | ht
            · subst he
              rw [happ, hoffi]
              omega
            · exact hbound q ht
    · rw [if_neg hc] at h
      cases h
      exact ⟨by omega, trivial, fun r hr => absurd hr (List.not_mem_nil r)⟩

/-- Phase 2 of the diff chains upward from its starting cursor. -/
lemma diffPhase2_chain (dest : List Nat) :
    ∀ fuel i recs, diffPhase2 dest fuel i = .ok recs → ChainFrom i recs := by
  intro fuel
  induction fuel with
  | zero => intro i recs h; simp [diffPhase2] at h
  | succ fuel ih =>
    intro i recs h
    simp only [diffPhase2] at h
    by_cases hc : i < dest.length
    · rw [if_pos hc] at h
      split at h
      · cases h
      next r hinit =>
        split at h
        · cases h
        next rs hrec =>
          cases h
          obtain ⟨hr, _, _, _⟩ := init_ok_inv _ _ _ _ hinit
          subst hr
          have hSM : 1 ≤ SIZE_MAX := by
            simp [SIZE_MAX, SIZE_BITS, SIZE_SIZE]
          have happ : (⟨i, pySlice dest i (min dest.length (i + SIZE_MAX)), 0⟩ :
              IPSPatchRecord).applied_size = min dest.length (i + SIZE_MAX) - i := by
            rw [applied_size_literal _ rfl, pySlice_length]
            omega
          have hoffi : (⟨i, pySlice dest i (min dest.length (i + SIZE_MAX)), 0⟩ :
              IPSPatchRecord).offset = i := rfl
          refine ⟨le_refl i, ?_, ?_⟩
          · rw [happ]
            omega
          · apply ChainFrom_mono _ _ _ (ih _ _ hrec)
            rw [happ, hoffi]
            omega
    · rw [if_neg hc] at h
      cases h
      trivial

/-! ### Decode termination lemmas -/

lemma isFuelOut_error {α : Type} (e : PatchError) (h : e ≠ .fuelOut) :
    isFuelOut (Except.error (α := α) e) = false := by
  cases e <;> simp_all [isFuelOut]

lemma ne_fuelOut_of {α : Type} (e : PatchError)
    (h : isFuelOut (Except.error (α := α) e) = false) : e ≠ .fuelOut := by
  cases e <;> simp_all [isFuelOut]

lemma isFuelOut_init (offset : Nat) (data : List Nat) (rle_size : Nat) :
    isFuelOut (IPSPatchRecord.init offset data rle_size) = false := by
  unfold IPSPatchRecord.init
  split_ifs <;> rfl

lemma from_bytes_no_fuel (span : List Nat) :
    isFuelOut (IPSPatchRecord.from_bytes span) = false := by
  simp only [IPSPatchRecord.from_bytes]
  split
  · exact isFuelOut_init _ _ _
  · exact isFuelOut_init _ _ _

lemma parseRecords_not_fuelOut (data : List Nat) :
    ∀ fuel i, data.length - i + 1 ≤ fuel → isFuelOut (parseRecords data fuel i) = false := by
  intro fuel
  induction fuel with
  | zero => intro i h; omega
  | succ fuel ih =>
    intro i h
    simp only [parseRecords]
    split_ifs with h1 h2
    · rfl
    · rfl
    · split
      · next e hfb =>
        have h5 := from_bytes_no_fuel (data.drop i)
        rw [hfb] at h5
        exact isFuelOut_error e (ne_fuelOut_of e h5)
      · next r hfb =>
        have hbl := byteLen_ge_five r
        split
        · next e hrec =>
          have := ih (i + r.byteLen) (by omega)
          rwa [hrec] at this
        · next rs hrec => rfl

lemma from_bytes_patch_no_fuel (data : List Nat) :
    isFuelOut (IPSPatch.from_bytes data) = false := by
  unfold IPSPatch.from_bytes
  split_ifs with h
  · split
    · next e hp =>
      have h5 := parseRecords_not_fuelOut data (data.length + 1) 5 (by omega)
      rw [hp] at h5
      exact isFuelOut_error e (ne_fuelOut_of e h5)
    · next rs hp => rfl
  · rfl

/-! ### Claim theorems -/

/-- C1 (counterexample): for `source = b'\x00\x00'` and `target = b'\x00'`
(target shorter than source), `from_diff` produces an empty patch, and
applying it to the source returns the source unchanged, which differs
from the target.  The diff scan compares byte pairs with `zip`, which
stops at the shorter buffer, so a longer source's tail is never treated
as mismatching, and the IPS record format cannot shrink a buffer. -/
theorem diff_apply_shrink_counterexample :
    IPSPatch.from_diff [0, 0] [0] = .ok ⟨[]⟩ ∧
      IPSPatch.apply ⟨[]⟩ [0, 0] = [0, 0] ∧
      decide (IPSPatch.apply ⟨[]⟩ [0, 0] = [0]) = false := by
  decide

/-- C1 (amended): for all byte buffers `source` and `target` with
`source` no longer than `target` (empty buffers, longer targets and
identical buffers included), any patch produced by
`IPSPatch.from_diff(source, target)` applied to `source` yields exactly
`target`; target bytes past the source's end are emitted as trailing
literal records. -/
theorem diff_apply_inverse (src dest : List Nat) (p : IPSPatch)
    (hL : src.length ≤ dest.length) (h : IPSPatch.from_diff src dest = .ok p) :
    IPSPatch.apply p src = dest := by
  unfold IPSPatch.from_diff at h
  split at h
  · cases h
  next iEnd rs1 hp1 =>
    split at h
    · cases h
    next rs2 hp2 =>
      cases h
      have hi0le : findFirst pyNe src dest 0 src.length ≤ src.length :=
        findFirst_le_fin pyNe src dest 0 src.length
      obtain ⟨hiEnd, hlen1, hpt1⟩ := diffPhase1_pointwise src dest hL _ _ _ _ hp1 hi0le src
        rfl (fun k _ _ => rfl)
      have hres1 : applyRecords rs1 src = dest.take src.length := by
        apply list_eq_of_getD
        · rw [hlen1]
          simp only [List.length_take]
          omega
        · intro k hk
          rw [hlen1] at hk
          rw [hpt1 k hk, getD_take_lt _ _ _ _ hk]
          by_cases hki : k < findFirst pyNe src dest 0 src.length
          · rw [if_pos hki]
            exact pyNe_false _ _ (findFirst_before pyNe src dest 0 src.length k
              (Nat.zero_le k) hki (by omega))
          · rw [if_neg hki]
      subst hiEnd
      have hA := diffPhase2_apply dest _ _ _ hp2 (dest.take src.length)
        (by simp only [List.length_take]; omega)
      show applyRecords (rs1 ++ rs2) src = dest
      rw [applyRecords_append, hres1, hA, List.take_append_drop]

/-- C1 (witness): concrete instance of the amended diff–apply inverse. -/
theorem diff_apply_inverse_witness : IPSPatch.apply ⟨[⟨0, [1], 0⟩]⟩ [0] = [1] :=
  diff_apply_inverse [0] [1] ⟨[⟨0, [1], 0⟩]⟩ (by decide) (by decide)

/-- C2 (code bug): `to_bytes` of an RLE record emits the fill byte
`rle_size` times (9 bytes here) while `from_bytes` reads exactly one
fill byte and `__len__` advances the cursor by 8, so decoding the
encoding of a patch holding the well-formed RLE record (offset 0, fill
65, rleLength 2) misparses the surplus fill byte as a new record and
fails with `ValueError('Invalid patch format.')` instead of returning
the original record sequence. -/
theorem rle_patch_roundtrip_fails :
    (⟨0, [65], 2⟩ : IPSPatchRecord).to_bytes.length = 9 ∧
      (⟨0, [65], 2⟩ : IPSPatchRecord).byteLen = 8 ∧
      IPSPatch.from_bytes (IPSPatch.to_bytes ⟨[⟨0, [65], 2⟩]⟩) =
        .error .invalidFormat := by
  decide

/-- C3: single-record round-trip: for every valid record (a literal
record with non-empty data of length at most 65535 and in-range offset,
or an RLE record holding its one fill byte with in-range rleLength),
decoding the bytes produced by encoding the record yields the record
back, equal in offset, data and rle_size (hence in the RLE flag). -/
theorem record_roundtrip (r : IPSPatchRecord)
    (h1 : r.offset ≤ OFFSET_MAX) (h2 : r.data.length ≤ SIZE_MAX)
    (h3 : r.rle_size ≤ RLE_SIZE_MAX)
    (h4 : r.rle_size = 0 → r.data ≠ [])
    (h5 : 0 < r.rle_size → r.data.length = 1) :
    IPSPatchRecord.from_bytes r.to_bytes = .ok r := by
  have := record_from_to r [] h1 h2 h3 h4 h5
  simpa using this

/-- C3 (witness): concrete round-trips of a literal and of an RLE
record. -/
theorem record_roundtrip_witness :
    IPSPatchRecord.from_bytes ((⟨2, [10, 20], 0⟩ : IPSPatchRecord).to_bytes) =
      .ok ⟨2, [10, 20], 0⟩ :=
  record_roundtrip ⟨2, [10, 20], 0⟩ (by decide) (by decide) (by decide)
    (by decide) (by decide)

/-- C4 (code bug): single-record decode does not fail on a truncated
span.  The span `[0,0,1, 0,5, 65,66]` declares a 5-byte literal payload
but provides only 2 bytes; `from_bytes` silently returns the partial
record (offset 1, data `[65,66]`) instead of raising MalformedPatch —
Python's clamping slices never signal truncation. -/
theorem truncated_record_decodes :
    IPSPatchRecord.from_bytes [0, 0, 1, 0, 5, 65, 66] = .ok ⟨1, [65, 66], 0⟩ := by
  decide

/-- C5 (code bug): the constructor accepts a non-RLE record with
zero-length literal data: `IPSPatchRecord(0, b'', 0)` raises no error,
and the record's encoding `[0,0,0, 0,0]` starts exactly like an RLE
record (size field 0), the ambiguity the claim says is prevented. -/
theorem empty_literal_constructible :
    IPSPatchRecord.init 0 [] 0 = .ok ⟨0, [], 0⟩ ∧
      (⟨0, [], 0⟩ : IPSPatchRecord).is_rle = false ∧
      (⟨0, [], 0⟩ : IPSPatchRecord).to_bytes = [0, 0, 0, 0, 0] := by
  decide

/-- C6 (counterexample): applying the literal record (offset 3, data
`[7]`) to the 2-byte buffer `[0,0]` does not grow the buffer to cover
`[3, 4)`: Python slice assignment clamps the start to the buffer end and
appends, producing `[0,0,7]` of length 3 < offset + applied_size = 4,
with no byte at position 3. -/
theorem apply_gap_counterexample :
    IPSPatchRecord.apply ⟨3, [7], 0⟩ [0, 0] = [0, 0, 7] ∧
      decide ((⟨3, [7], 0⟩ : IPSPatchRecord).offset +
        (⟨3, [7], 0⟩ : IPSPatchRecord).applied_size ≤
          (IPSPatchRecord.apply ⟨3, [7], 0⟩ [0, 0]).length) = false := by
  decide

/-- C6 (amended): for every well-formed record (an RLE record's literal
data is its single fill byte) and every buffer whose length is at least
the record's offset, applying the record yields a buffer of length
`max(old length, offset + applied_size)` — growing the buffer whenever
the applied range extends past its end — and the record's replacement
bytes occupy positions `offset` through `offset + applied_size - 1`. -/
theorem record_apply_extends (r : IPSPatchRecord) (buf : List Nat)
    (hwf : r.is_rle = true → r.data.length = 1) (hoff : r.offset ≤ buf.length) :
    (r.apply buf).length = max buf.length (r.offset + r.applied_size) ∧
      pySlice (r.apply buf) r.offset (r.offset + r.applied_size) =
        (if r.is_rle then pyRepeat (r.data.take 1) r.rle_size else r.data) := by
  rcases Nat.eq_zero_or_pos r.rle_size with h0 | hpos
  · have hflag := is_rle_false r h0
    rw [apply_literal r buf h0, applied_size_literal r h0, hflag]
    simp only [Bool.false_eq_true, if_false]
    exact ⟨pySetSlice_length _ _ _ _ hoff rfl, pySlice_pySetSlice _ _ _ _ hoff rfl⟩
  · have hflag := is_rle_true r hpos
    have hd1 : r.data.length = 1 := hwf hflag
    have hrep : (pyRepeat (r.data.take 1) r.rle_size).length = r.rle_size := by
      rw [pyRepeat]
      simp [List.length_take, hd1]
    have happ : r.apply buf =
        pySetSlice buf r.offset (r.offset + r.rle_size)
          (pyRepeat (r.data.take 1) r.rle_size) := by
      rw [IPSPatchRecord.apply, hflag]
      simp
    rw [happ, applied_size_rle r hpos, hflag]
    simp only [if_true]
    exact ⟨pySetSlice_length _ _ _ _ hoff hrep, pySlice_pySetSlice _ _ _ _ hoff hrep⟩

/-- C6 (witness): a record whose range [1, 3) extends past a 1-byte
buffer grows it to length 3 with its bytes at positions 1 and 2. -/
theorem record_apply_extends_witness :
    ((⟨1, [9, 9], 0⟩ : IPSPatchRecord).apply [5]).length =
      max ([5] : List Nat).length
        ((⟨1, [9, 9], 0⟩ : IPSPatchRecord).offset +
          (⟨1, [9, 9], 0⟩ : IPSPatchRecord).applied_size) ∧
      pySlice ((⟨1, [9, 9], 0⟩ : IPSPatchRecord).apply [5])
          (⟨1, [9, 9], 0⟩ : IPSPatchRecord).offset
          ((⟨1, [9, 9], 0⟩ : IPSPatchRecord).offset +
            (⟨1, [9, 9], 0⟩ : IPSPatchRecord).applied_size) =
        (if (⟨1, [9, 9], 0⟩ : IPSPatchRecord).is_rle then
          pyRepeat ((⟨1, [9, 9], 0⟩ : IPSPatchRecord).data.take 1)
            (⟨1, [9, 9], 0⟩ : IPSPatchRecord).rle_size
        else (⟨1, [9, 9], 0⟩ : IPSPatchRecord).data) :=
  record_apply_extends ⟨1, [9, 9], 0⟩ [5] (by decide) (by decide)

/-- C7 (code bug): the constructor accepts an RLE record whose literal
data is not a single byte: `IPSPatchRecord(0, b'\x07\x08', 5)` raises
no error and yields a record with `is_rle` true holding two data bytes,
contradicting the claim that no such record can be built. -/
theorem rle_multibyte_constructible :
    IPSPatchRecord.init 0 [7, 8] 5 = .ok ⟨0, [7, 8], 5⟩ ∧
      (⟨0, [7, 8], 5⟩ : IPSPatchRecord).is_rle = true ∧
      (⟨0, [7, 8], 5⟩ : IPSPatchRecord).data.length = 2 := by
  decide

/-- C8: the end-to-end example: diffing `b'\x00\x00\x00\x00\x00'`
against `b'\x00\x01\x01\x00\x00'` produces exactly one literal record
(offset 1, data `b'\x01\x01'`); encoding that patch yields
`b'PATCH' + b'\x00\x00\x01' + b'\x00\x02' + b'\x01\x01' + b'EOF'`;
applying the patch to the source yields the target. -/
theorem end_to_end_example :
    IPSPatch.from_diff [0, 0, 0, 0, 0] [0, 1, 1, 0, 0] = .ok ⟨[⟨1, [1, 1], 0⟩]⟩ ∧
      (⟨1, [1, 1], 0⟩ : IPSPatchRecord).is_rle = false ∧
      IPSPatch.to_bytes ⟨[⟨1, [1, 1], 0⟩]⟩ =
        [80, 65, 84, 67, 72, 0, 0, 1, 0, 2, 1, 1, 69, 79, 70] ∧
      IPSPatch.apply ⟨[⟨1, [1, 1], 0⟩]⟩ [0, 0, 0, 0, 0] = [0, 1, 1, 0, 0] := by
  decide

/-- C9: for every pair of input buffers, any record sequence produced by
`from_diff` has strictly increasing offsets and pairwise disjoint
applied ranges `[offset, offset + applied_size)` (each range ends no
later than the next offset begins). -/
theorem from_diff_ordered_disjoint (src dest : List Nat) (p : IPSPatch)
    (h : IPSPatch.from_diff src dest = .ok p) :
    p.records.Pairwise (fun a b => a.offset < b.offset ∧
      a.offset + a.applied_size ≤ b.offset) := by
  unfold IPSPatch.from_diff at h
  split at h
  · cases h
  next iEnd rs1 hp1 =>
    split at h
    · cases h
    next rs2 hp2 =>
      cases h
      have hi0le : findFirst pyNe src dest 0 src.length ≤ src.length :=
        findFirst_le_fin pyNe src dest 0 src.length
      have hinv0 : findFirst pyNe src dest 0 src.length < src.length →
          findFirst pyNe src dest 0 src.length < dest.length ∧
            src.getD (findFirst pyNe src dest 0 src.length) 0 ≠
              dest.getD (findFirst pyNe src dest 0 src.length) 0 := by
        intro hlt
        obtain ⟨_, hm, htrue⟩ := findFirst_lt_inv pyNe src dest 0 src.length hlt
        exact ⟨by omega, pyNe_true _ _ htrue⟩
      obtain ⟨hiEnd, hch1, hb1⟩ := diffPhase1_chain src dest _ _ _ _ hp1 hi0le hinv0
      subst hiEnd
      have hch2 := diffPhase2_chain dest _ _ _ hp2
      exact ChainFrom_pairwise 0 _ (ChainFrom_mono _ 0 _
        (ChainFrom_append (findFirst pyNe src dest 0 src.length) src.length rs1 rs2
          hch1 hb1 hch2 hi0le) (Nat.zero_le _))

/-- C9 (witness): the two records diffed from `[0,0,0]` and `[1,0,2]`
are at strictly increasing offsets 0 and 2 with disjoint ranges. -/
theorem from_diff_ordered_disjoint_witness :
    ([⟨0, [1], 0⟩, ⟨2, [2], 0⟩] : List IPSPatchRecord).Pairwise
      (fun a b => a.offset < b.offset ∧ a.offset + a.applied_size ≤ b.offset) :=
  from_diff_ordered_disjoint [0, 0, 0] [1, 0, 2] ⟨[⟨0, [1], 0⟩, ⟨2, [2], 0⟩]⟩
    (by decide)

/-- C10: whole-patch decode terminates on every input: every record's
`__len__` is at least 5 bytes, so the decode cursor strictly advances
each iteration; consequently the fuelled embedding of the decode loop
never exhausts its fuel of `data.length + 1` — `from_bytes` always
returns a patch or one of the source's `ValueError` results in finitely
many steps. -/
theorem from_bytes_terminates :
    (∀ r : IPSPatchRecord, 5 ≤ r.byteLen) ∧
      ∀ data : List Nat, isFuelOut (IPSPatch.from_bytes data) = false :=
  ⟨byteLen_ge_five, from_bytes_patch_no_fuel⟩
